import Mathlib

/-!
Shallow embedding of the smart-contract database builder (Rust sources:
`src/utils.rs`, `src/plain_contract.rs`, `src/functions.rs`, `src/db.rs`,
`src/main.rs`) together with theorems settling the specification claims.

External collaborators (the md5 digest from the `md5` crate, the keccak-based
ABI selector from `alloy_json_abi`, and lossy UTF-8 byte slicing from the Rust
standard library) are pure functions outside this repository; they are taken
as explicit function parameters of the embedding, so every theorem quantifies
over them and every witness instantiates them concretely.
-/

namespace SCDB

/-! ## ContentHasher (`src/utils.rs`, `simple_hash`) -/

/-- Whitespace as matched by the Rust regex `\s`, i.e. the Unicode
`White_Space` property: ASCII space, the control characters U+0009..U+000D,
and the non-ASCII white-space code points. -/
def isWs (c : Char) : Bool :=
  let n := c.toNat
  n = 0x20 || (0x9 ≤ n && n ≤ 0xD) || n = 0x85 || n = 0xA0 || n = 0x1680 ||
  (0x2000 ≤ n && n ≤ 0x200A) || n = 0x2028 || n = 0x2029 || n = 0x202F ||
  n = 0x205F || n = 0x3000

theorem length_dropWhile_le_aux (p : Char → Bool) (l : List Char) :
    (l.dropWhile p).length ≤ l.length := by
  induction l with
  | nil => simp
  | cons c cs ih =>
    by_cases h : p c
    · rw [List.dropWhile_cons, if_pos h]
      exact Nat.le_succ_of_le ih
    · rw [List.dropWhile_cons, if_neg h]

/-- Replacement of every maximal run of whitespace by the empty string, as
performed by `re.replace_all(content, "")` with the pattern `\s+` in
`simple_hash`: a whitespace character opens a run, the whole run is dropped,
and scanning resumes after it. -/
def removeWsRuns : List Char → List Char
  | [] => []
  | c :: cs =>
    if isWs c then removeWsRuns (cs.dropWhile isWs)
    else c :: removeWsRuns cs
termination_by l => l.length
decreasing_by
  · simp only [List.length_cons]
    exact Nat.lt_succ_of_le (length_dropWhile_le_aux isWs cs)
  · simp

/-- Dropping every whitespace run is the same as filtering out every
whitespace character. -/
theorem removeWsRuns_eq_filter (l : List Char) :
    removeWsRuns l = l.filter (fun c => !isWs c) := by
  induction l using removeWsRuns.induct with
  | case1 => simp [removeWsRuns]
  | case2 c cs hws ih =>
    rw [removeWsRuns, if_pos hws, ih]
    have hdw : ∀ m : List Char,
        (m.dropWhile isWs).filter (fun c => !isWs c) =
          m.filter (fun c => !isWs c) := by
      intro m
      induction m with
      | nil => simp
      | cons a as iha =>
        by_cases ha : isWs a
        · simp [List.dropWhile_cons, ha, iha]
        · simp [List.dropWhile_cons, ha]
    simp [List.filter_cons, hws, hdw]
  | case3 c cs hws ih =>
    rw [removeWsRuns, if_neg hws, ih]
    simp [List.filter_cons, hws]

/-- Hashing the content after removing all the whitespaces
(`simple_hash` in `src/utils.rs`); the md5 digest of the external `md5` crate
is the parameter `digest`. -/
def simple_hash (digest : String → String) (content : String) : String :=
  digest (String.mk (removeWsRuns content.data))

/-! ## Data model (`src/plain_contract.rs`) -/

/-- Metadata of a contract. -/
structure Metadata where
  contract_name : String
  compiler_version : String
  runs : Nat
  optimization_used : Bool
  bytecode_hash : String
deriving DecidableEq, Repr

/-- A single source file. -/
structure SourceFile where
  name : String
  content : String
deriving DecidableEq, Repr

/-- The complete source code of a contract. -/
inductive ContractSource where
  | SingleSolidity (source : SourceFile)
  | MultiSolidity (sources : List SourceFile)
  | Vyper (source : SourceFile)
  | Json (source : SourceFile)
deriving DecidableEq, Repr

/-! Lexicographic comparison of strings by code point, the order in which the
itertools `sorted()` call in `ContractSource::hash` sorts the per-file hash
strings (Rust compares `String`s lexicographically; on the ASCII hex output of
the digest this coincides with byte order). We use our own executable
comparator because it must reduce inside the kernel. -/

/-- Lexicographic order on character lists, by code point. -/
def lexLe : List Char → List Char → Bool
  | [], _ => true
  | _ :: _, [] => false
  | a :: as, b :: bs =>
    if a.toNat < b.toNat then true
    else if b.toNat < a.toNat then false
    else lexLe as bs

/-- Lexicographic order on strings, by code point. -/
def strLe (a b : String) : Bool := lexLe a.data b.data

theorem lexLe_total (a b : List Char) : lexLe a b = true ∨ lexLe b a = true := by
  induction a generalizing b with
  | nil => left; rfl
  | cons x xs ih =>
    cases b with
    | nil => right; rfl
    | cons y ys =>
      by_cases h1 : x.toNat < y.toNat
      · left; simp [lexLe, h1]
      · by_cases h2 : y.toNat < x.toNat
        · right; simp [lexLe, h2]
        · rcases ih ys with h | h
          · left; simp [lexLe, h1, h2, h]
          · right; simp [lexLe, h1, h2, h]

theorem lexLe_antisymm {a b : List Char} (hab : lexLe a b = true)
    (hba : lexLe b a = true) : a = b := by
  induction a generalizing b with
  | nil =>
    cases b with
    | nil => rfl
    | cons y ys => simp [lexLe] at hba
  | cons x xs ih =>
    cases b with
    | nil => simp [lexLe] at hab
    | cons y ys =>
      by_cases h1 : x.toNat < y.toNat
      · exfalso
        simp [lexLe, h1, Nat.lt_asymm h1] at hba
      · by_cases h2 : y.toNat < x.toNat
        · exfalso
          simp [lexLe, h1, h2] at hab
        · have hx : x = y := by
            apply Char.ext
            apply UInt32.ext
            simp only [Char.toNat] at h1 h2
            omega
          simp [lexLe, h1, h2] at hab hba
          rw [hx, ih hab hba]

theorem lexLe_trans {a b c : List Char} (hab : lexLe a b = true)
    (hbc : lexLe b c = true) : lexLe a c = true := by
  induction a generalizing b c with
  | nil => rfl
  | cons x xs ih =>
    cases b with
    | nil => simp [lexLe] at hab
    | cons y ys =>
      cases c with
      | nil => simp [lexLe] at hbc
      | cons z zs =>
        by_cases hxy : x.toNat < y.toNat
        · by_cases hyz : y.toNat < z.toNat
          · simp [lexLe, Nat.lt_trans hxy hyz]
          · by_cases hzy : z.toNat < y.toNat
            · simp [lexLe, hyz, hzy] at hbc
            · have : y.toNat = z.toNat := by omega
              simp [lexLe, this ▸ hxy]
        · by_cases hyx : y.toNat < x.toNat
          · simp [lexLe, hxy, hyx] at hab
          · have hxyeq : x.toNat = y.toNat := by omega
            by_cases hyz : y.toNat < z.toNat
            · simp [lexLe, hxyeq ▸ hyz]
            · by_cases hzy : z.toNat < y.toNat
              · simp [lexLe, hyz, hzy] at hbc
              · simp only [lexLe, hxy, hyx, if_false, if_neg hxy, if_neg hyx] at hab
                simp only [lexLe, if_neg hyz, if_neg hzy] at hbc
                have hxz : ¬ x.toNat < z.toNat → ¬ z.toNat < x.toNat → lexLe xs zs = true := by
                  intro _ _; exact ih hab hbc
                by_cases h1 : x.toNat < z.toNat
                · simp [lexLe, h1]
                · by_cases h2 : z.toNat < x.toNat
                  · omega
                  · simp [lexLe, h1, h2, hxz h1 h2]

/-- The propositional form of `strLe`, used with Mathlib's insertion sort. -/
def strLeProp (a b : String) : Prop := strLe a b = true

instance : DecidableRel strLeProp := fun a b => by
  unfold strLeProp; infer_instance

instance : IsTotal String strLeProp :=
  ⟨fun a b => lexLe_total a.data b.data⟩

instance : IsTrans String strLeProp :=
  ⟨fun _ _ _ hab hbc => lexLe_trans hab hbc⟩

instance : IsAntisymm String strLeProp :=
  ⟨fun a b hab hba => String.ext (lexLe_antisymm hab hba)⟩

/-- Identity hash of a contract source (`ContractSource::hash`): a single
file is hashed directly; for a multi-file source each file is hashed, the
hashes are sorted and joined into a single string, and that string is hashed
again. -/
def ContractSource.hash (digest : String → String) : ContractSource → String
  | ContractSource.SingleSolidity source => simple_hash digest source.content
  | ContractSource.MultiSolidity sources =>
    let joined_hashes :=
      String.join (List.insertionSort strLeProp
        (sources.map (fun source => simple_hash digest source.content)))
    simple_hash digest joined_hashes
  | ContractSource.Vyper source => simple_hash digest source.content
  | ContractSource.Json source => simple_hash digest source.content

/-! ## Compiler output model

`PlainContract::compile` attaches a `ProjectCompileOutput` produced by the
external `foundry_compilers` toolchain.  The pipeline only consumes it through
`artifacts()` / `artifacts_with_files()` (pairs and triples of contract name,
file name and artifact), the artifact's ABI, and the artifact's source-file
AST, so the embedding records exactly those projections. -/

/-- AST node kind. `foundry_compilers` has many node types; the code matches
only `ContractDefinition` and `FunctionDefinition` and treats every other
kind uniformly, so the embedding collapses the rest into `Other`. -/
inductive NodeType where
  | ContractDefinition
  | FunctionDefinition
  | Other
deriving DecidableEq, Repr

/-- Source location triple of an AST node (`node.src`): byte start, optional
byte length, optional source-file index. -/
structure SrcLoc where
  start : Nat
  length : Option Nat
  index : Option Nat
deriving DecidableEq, Repr

/-- An AST node: its kind, its `"name"` attribute (absent on nodes that carry
no name), its source location and its child nodes. -/
inductive Node where
  | mk (node_type : NodeType) (name : Option String) (src : SrcLoc)
       (nodes : List Node)

def Node.node_type : Node → NodeType
  | .mk t _ _ _ => t

def Node.name : Node → Option String
  | .mk _ nm _ _ => nm

def Node.src : Node → SrcLoc
  | .mk _ _ s _ => s

def Node.nodes : Node → List Node
  | .mk _ _ _ ns => ns

/-- Parsed AST of one source file: its absolute path and its top-level
nodes. -/
structure Ast where
  absolute_path : String
  nodes : List Node

/-- One ABI function entry (`alloy_json_abi::Function`): its name and its
canonical input-type list.  `signature()` and `selector()` of the external
crate are derived from these fields (the keccak digest behind `selector()` is
a parameter of the embedding). -/
structure AbiFunction where
  name : String
  inputTypes : List String
deriving DecidableEq, Repr

/-- Canonical signature string, `alloy_json_abi::Function::signature()`:
`name(type1,type2,...)`. -/
def AbiFunction.signature (f : AbiFunction) : String :=
  f.name ++ "(" ++ String.intercalate "," f.inputTypes ++ ")"

/-- One compiled artifact as the pipeline sees it: the file it came from and
its contract name (the projections used by `artifacts()` and
`artifacts_with_files()`), `source_file().and_then(|f| f.ast)`, and the ABI. -/
structure ArtifactEntry where
  file : String
  name : String
  source_ast : Option Ast
  abi : Option (List AbiFunction)

/-- The compiled output: the artifact list, in the iteration order shared by
`artifacts()` and `artifacts_with_files()`. -/
structure CompilationOutput where
  artifacts : List ArtifactEntry

/-- A contract with metadata and source code (`PlainContract`); the two
`serde(skip)` fields hold the transient compiled state attached by
`compile()`. -/
structure PlainContract where
  metadata : Metadata
  source : ContractSource
  compilation_output : Option CompilationOutput
  source_files : Option (List SourceFile)

/-- `PlainContract::new`. -/
def PlainContract.new (metadata : Metadata) (source : ContractSource) :
    PlainContract :=
  { metadata := metadata, source := source,
    compilation_output := none, source_files := none }

/-- `PlainContract::hash`: delegates to the source hash. -/
def PlainContract.hash (digest : String → String) (c : PlainContract) :
    String :=
  c.source.hash digest

/-- `PlainContract::id`: the identity is the hash. -/
def PlainContract.id (digest : String → String) (c : PlainContract) : String :=
  c.hash digest

/-! ## ContractFunction (`src/functions.rs`) -/

/-- One exported function of one compiled contract. -/
structure ContractFunction where
  id : String
  contract_id : String
  contract_name : String
  function_name : String
  filename : String
  signature : String
  selector : String
  source_code : String
deriving DecidableEq, Repr

/-- Lowercase hex digit of a value below 16. -/
def hexDigit (n : Nat) : Char :=
  if n < 10 then Char.ofNat (48 + n) else Char.ofNat (87 + n)

/-- Fixed-width lowercase hex rendering of the 4-byte selector value, as
produced by `format!("{:04x}", selector)` on a `FixedBytes<4>`: every byte
prints as two hex digits, giving eight digits (the minimum width 4 never
pads). -/
def hex8 (n : Nat) : String :=
  let m := n % 2 ^ 32
  String.mk ((List.range 8).map fun i => hexDigit (m / 16 ^ (7 - i) % 16))

/-- `ContractFunction::from_abi`.  `keccak4` is the external keccak-256
digest truncated to the first 4 bytes, as used by
`alloy_json_abi::Function::selector()` on the canonical signature; the id is
the whitespace-stripping hash of contract id, filename and rendered selector
concatenated. -/
def ContractFunction.from_abi (digest : String → String)
    (keccak4 : String → Nat) (contract_id : String) (filename : String)
    (contract_name : String) (f : AbiFunction) (source_code : String) :
    ContractFunction :=
  let selector := "0x" ++ hex8 (keccak4 f.signature)
  let signature := f.signature
  let id := simple_hash digest (contract_id ++ filename ++ selector)
  let function_name := f.name
  { id := id, contract_id := contract_id, contract_name := contract_name,
    function_name := function_name, filename := filename,
    signature := signature, selector := selector, source_code := source_code }

/-! ## Path sanitization (`sanitize_path`, `write_entries`)

Paths are modelled through Rust's `std::path::Component` view of a Unix path
string: a leading `/` yields `RootDir`, the remaining slash-separated pieces
become `ParentDir` for `..`, `CurDir` for `.` (normalized away except at the
start of a relative path) and `Normal` otherwise; empty pieces (duplicate
slashes, trailing slash) disappear. -/

/-- One path component. -/
inductive Comp where
  | rootDir
  | curDir
  | parentDir
  | normal (s : String)
deriving DecidableEq, Repr

/-- The text of a component, `Component::as_os_str`. -/
def Comp.osStr : Comp → String
  | .rootDir => "/"
  | .curDir => "."
  | .parentDir => ".."
  | .normal s => s

/-- Splits a character list at every `/`. -/
def splitSlashAux : List Char → List Char → List String
  | [], acc => [String.mk acc.reverse]
  | c :: cs, acc =>
    if c = '/' then String.mk acc.reverse :: splitSlashAux cs []
    else splitSlashAux cs (c :: acc)

/-- The slash-separated pieces of a path string. -/
def splitSlash (s : String) : List String :=
  splitSlashAux s.data []

/-- A non-empty piece as a component. -/
def pieceToComp (p : String) : Comp :=
  if p = ".." then Comp.parentDir
  else if p = "." then Comp.curDir
  else Comp.normal p

/-- Whether the path string is absolute. -/
def hasRootSlash (s : String) : Bool :=
  match s.data with
  | '/' :: _ => true
  | _ => false

/-- The non-empty pieces of a path string as components, with every `.`
dropped; the body of the `Path::components` view. -/
def componentsBody (s : String) : List Comp :=
  (((splitSlash s).filter (fun p => p ≠ "")).map pieceToComp).filter
    (fun c => c ≠ Comp.curDir)

/-- Component view of a path string, following `Path::components`: a leading
slash becomes `RootDir`, empty pieces vanish, and `.` is normalized away
except when it is the first component of a relative path. -/
def pathComponents (s : String) : List Comp :=
  if hasRootSlash s then Comp.rootDir :: componentsBody s
  else
    match (((splitSlash s).filter (fun p => p ≠ "")).map pieceToComp) with
    | Comp.curDir :: _ => Comp.curDir :: componentsBody s
    | _ => componentsBody s

/-- The `strip_prefix("/")` step of `sanitize_path`: an absolute path loses
its root component and becomes relative, any other path is unchanged. -/
def stripRootDir : List Comp → List Comp
  | Comp.rootDir :: rest => rest
  | l => l

/-- Remove any components in a smart contract source path that could cause a
directory traversal (`sanitize_path`): drop every component whose text is
`..`, then force an absolute path to be relative by stripping the `/`
prefix. -/
def sanitize_path (path : String) : List Comp :=
  stripRootDir ((pathComponents path).filter (fun x => x.osStr ≠ ".."))

/-- Whether the last component of a relative path carries an extension,
following `Path::extension`: the part of the final normal component after its
last `.`, none when the component has no `.` past its first character or the
path does not end in a normal component. -/
def lastCompExtension : List Comp → Option String
  | [] => none
  | [Comp.normal s] =>
    let chars := s.data
    let ext := chars.reverse.takeWhile (fun c => c ≠ '.')
    if ext.length + 1 < chars.length then some (String.mk ext.reverse)
    else none
  | _ :: rest => lastCompExtension rest

/-- `PathBuf::with_extension("sol")` on a relative component path whose
extension is absent (the only situation `write_entries` calls it in): the
file stem is then the whole final normal component, so `.sol` is appended to
it; a path without a final normal component is returned unchanged. -/
def withSolExtension : List Comp → List Comp
  | [] => []
  | [Comp.normal s] => [Comp.normal (s ++ ".sol")]
  | c :: rest => c :: withSolExtension rest

/-- Resolution of a component path against a base directory, modelling what
the file system does with the path handed to `fs::write` after
`dir.join(sanitized_path)`: `RootDir` jumps to the file-system root, `..`
pops one directory, `.` is a no-op and a normal component descends. -/
def resolvePath (base : List String) : List Comp → List String
  | [] => base
  | Comp.rootDir :: rest => resolvePath [] rest
  | Comp.curDir :: rest => resolvePath base rest
  | Comp.parentDir :: rest => resolvePath base.dropLast rest
  | Comp.normal s :: rest => resolvePath (base ++ [s]) rest

/-- The path actually written by one `write_entries` iteration for `entry`,
relative to the target directory: the sanitized name, with the default `sol`
extension appended when the sanitized name has no extension and no sibling
entry already claims the extended name. -/
def write_entry_path (entries : List SourceFile) (entry : SourceFile) :
    List Comp :=
  if lastCompExtension (sanitize_path entry.name) = none then
    if ¬ entries.any (fun e =>
        pathComponents e.name = withSolExtension (sanitize_path entry.name))
    then withSolExtension (sanitize_path entry.name)
    else sanitize_path entry.name
  else sanitize_path entry.name

/-! ## Ingestion from a folder (`PlainContract::from_folder`)

The folder is modelled by what the four `fs` probes can observe: the parsed
`metadata.json` (`none` when reading or parsing fails), the contents of
`contract.json`, `main.sol` and `main.vy` (`none` when the file is absent),
and the directory listing used by `source_from_multi_source_contract`. -/

/-- Observable content of a candidate contract directory. -/
structure Folder where
  metadata : Option Metadata
  contract_json : Option String
  main_sol : Option String
  main_vy : Option String
  files : List SourceFile

/-- File extension of a plain file name, as used by the `path.extension()`
check in `source_from_multi_source_contract`. -/
def fileExtension (name : String) : Option String :=
  let chars := name.data
  let ext := chars.reverse.takeWhile (fun c => c ≠ '.')
  if ext.length + 1 < chars.length then some (String.mk ext.reverse)
  else none

/-- `source_from_multi_source_contract`: collect every sibling file with the
`sol` extension as a multi-file source. -/
def source_from_multi_source_contract (folder : Folder) : ContractSource :=
  ContractSource.MultiSolidity
    (folder.files.filter (fun f => fileExtension f.name = some "sol"))

/-- Parse a contract from a folder path (`PlainContract::from_folder`): the
metadata must parse, then the first of `contract.json`, `main.sol`, `main.vy`
that is present wins, and when none is present every sibling `.sol` file is
collected. -/
def PlainContract.from_folder (folder : Folder) :
    Except String PlainContract :=
  match folder.metadata with
  | none => .error "metadata.json missing or malformed"
  | some metadata =>
    match folder.contract_json, folder.main_sol, folder.main_vy with
    | some contract_json, _, _ =>
      .ok (PlainContract.new metadata
        (ContractSource.Json ⟨"contract.json", contract_json⟩))
    | _, some solidity_source, _ =>
      .ok (PlainContract.new metadata
        (ContractSource.SingleSolidity ⟨"main.sol", solidity_source⟩))
    | _, _, some viper_source =>
      .ok (PlainContract.new metadata
        (ContractSource.Vyper ⟨"main.vy", viper_source⟩))
    | _, _, _ =>
      .ok (PlainContract.new metadata
        (source_from_multi_source_contract folder))

/-! ## ContractStore (`src/db.rs`)

The two DuckDB tables are modelled as row lists in insertion order.  The
`serde_json` serialization of metadata and source into the TEXT columns is an
injective encoding irrelevant to every claim, so rows store the structured
values directly. -/

/-- One row of the `contract` table. -/
structure ContractRow where
  id : String
  name : String
  metadata : Metadata
  source : ContractSource
  source_type : String
deriving DecidableEq, Repr

/-- The `source_type` ENUM value stored for a source, as in
`store_contracts`. -/
def sourceTypeStr : ContractSource → String
  | ContractSource.SingleSolidity _ => "single_sol"
  | ContractSource.MultiSolidity _ => "multi_sol"
  | ContractSource.Vyper _ => "vyper"
  | ContractSource.Json _ => "json"

/-- The row `store_contracts` builds for one contract: the id is the contract
hash. -/
def contractRow (digest : String → String) (c : PlainContract) : ContractRow :=
  { id := c.hash digest, name := c.metadata.contract_name,
    metadata := c.metadata, source := c.source,
    source_type := sourceTypeStr c.source }

/-- One `INSERT ... ON CONFLICT DO NOTHING` (equally `INSERT OR IGNORE`)
against a table with a primary key: a row whose key is already present is
silently skipped, otherwise the row is appended. -/
def insertOrIgnore {α : Type} (key : α → String) (table : List α) (row : α) :
    List α :=
  if table.any (fun r => key r = key row) then table else table ++ [row]

/-- Store multiple contracts in batch mode (`Storage::store_contracts`):
insert-or-ignore keyed by the contract id, errors of individual inserts
discarded. -/
def store_contracts (digest : String → String) (table : List ContractRow)
    (contracts : List PlainContract) : List ContractRow :=
  contracts.foldl
    (fun t c => insertOrIgnore ContractRow.id t (contractRow digest c)) table

/-- `Storage::count_contracts`: `SELECT COUNT(*) FROM contract`. -/
def count_contracts (table : List ContractRow) : Nat :=
  table.length

/-- `Storage::store_functions`: insert-or-ignore keyed by the function id,
errors of individual inserts discarded. -/
def store_functions (table : List ContractFunction)
    (functions : List ContractFunction) : List ContractFunction :=
  functions.foldl (fun t f => insertOrIgnore ContractFunction.id t f) table

/-- Distinctness of the primary-key column, the schema invariant of a
`PRIMARY KEY` table. -/
def keysNodup {α : Type} (key : α → String) (table : List α) : Prop :=
  (table.map key).Nodup

/-! ## CompilationOrchestrator pagination (`index_functions`, `src/main.rs`)

`index_functions` computes `total_contracts = count_contracts()` once, then
loops: it stops when the offset `i` reaches the total, otherwise reads the
page `SELECT ... OFFSET i LIMIT chunk_size` and advances `i` by
`chunk_size`.  A page at offset `i` of a stable ordering is
`(table.drop i).take size`.  The visited rows are collected in loop order.
The Rust loop does not terminate when `chunk_size = 0`, so the embedding
carries the positivity of the page size as a hypothesis. -/

/-- Rows visited by the pagination loop of `index_functions` from offset `i`
on. -/
def index_functions_pages (table : List ContractRow) (size : Nat)
    (hsize : 0 < size) (i : Nat) : List ContractRow :=
  if i < count_contracts table then
    ((table.drop i).take size) ++ index_functions_pages table size hsize (i + size)
  else []
termination_by count_contracts table - i
decreasing_by
  simp only [count_contracts] at *
  omega

/-- All rows visited by the pagination loop of `index_functions`, which
starts at offset 0. -/
def index_functions_visited (table : List ContractRow) (size : Nat)
    (hsize : 0 < size) : List ContractRow :=
  index_functions_pages table size hsize 0

/-! ## FunctionExtractor: AST search
(`PlainContract::source_code_by_contract_and_function_name`) -/

mutual
/-- Size of one AST node, the termination measure of the two worklist
loops. -/
def Node.weight : Node → Nat
  | .mk _ _ _ ns => 1 + Node.weightList ns
/-- Total size of a node forest. -/
def Node.weightList : List Node → Nat
  | [] => 0
  | n :: ns => Node.weight n + Node.weightList ns
end

theorem Node.weight_def (n : Node) : n.weight = 1 + Node.weightList n.nodes := by
  cases n
  rw [Node.weight, Node.nodes]

theorem Node.weightList_append (a b : List Node) :
    Node.weightList (a ++ b) = Node.weightList a + Node.weightList b := by
  induction a with
  | nil => simp [Node.weightList]
  | cons n ns ih =>
    rw [List.cons_append, Node.weightList, Node.weightList, ih]
    omega

theorem getLast?_decomp {α : Type} {l : List α} {a : α}
    (h : l.getLast? = some a) : l = l.dropLast ++ [a] := by
  induction l with
  | nil => simp at h
  | cons x xs ih =>
    cases xs with
    | nil =>
      simp only [List.getLast?_singleton, Option.some.injEq] at h
      simp [h]
    | cons y ys =>
      rw [List.getLast?_cons_cons] at h
      rw [List.dropLast_cons_of_ne_nil (by simp), List.cons_append]
      rw [← ih h]

theorem weightList_pop {wl : List Node} {node : Node}
    (h : wl.getLast? = some node) :
    Node.weightList wl.dropLast < Node.weightList wl := by
  conv_rhs => rw [getLast?_decomp h]
  rw [Node.weightList_append]
  have := Node.weight_def node
  simp only [Node.weightList]
  omega

theorem weightList_pop_push {wl : List Node} {node : Node}
    (h : wl.getLast? = some node) (children : List Node)
    (hch : children = node.nodes) :
    Node.weightList (wl.dropLast ++ children) < Node.weightList wl := by
  conv_rhs => rw [getLast?_decomp h]
  rw [Node.weightList_append, Node.weightList_append, hch]
  have := Node.weight_def node
  simp only [Node.weightList]
  omega

/-- First worklist loop of `source_code_by_contract_and_function_name`: pop
from the end while more than one node remains; a contract-definition node
whose `name` attribute equals the target contract name ends the search and
its children become the contract scope; any other node is replaced by its
children at the end of the worklist.  When the loop exhausts (including the
case of a single remaining node, which the `> 1` guard never pops), the
scope stays empty. -/
def findContractScope (cname : String) (wl : List Node) : List Node :=
  if 1 < wl.length then
    match hlast : wl.getLast? with
    | none => []
    | some node =>
      if node.node_type = NodeType.ContractDefinition ∧ node.name = some cname
      then node.nodes
      else findContractScope cname (wl.dropLast ++ node.nodes)
  else []
termination_by Node.weightList wl
decreasing_by
  exact weightList_pop_push hlast node.nodes rfl

/-- Outcome of the function-source search: a recovered source slice, a
recoverable error value (`eyre::Result::Err`), or a Rust panic (from
`Option::expect` on the source-location fields). -/
inductive FnResult where
  | ok (s : String)
  | err (msg : String)
  | panic (msg : String)
deriving DecidableEq, Repr

/-- Number of bytes a character occupies in UTF-8, by code-point range. -/
def charUtf8Size (c : Char) : Nat :=
  let n := c.toNat
  if n < 0x80 then 1 else if n < 0x800 then 2 else if n < 0x10000 then 3
  else 4

/-- UTF-8 byte length of a string, `content.as_bytes().len()` in Rust. -/
def utf8Length (s : String) : Nat :=
  (s.data.map charUtf8Size).sum

/-- Replacement of every `\r\n` by `\n`, scanning left to right over
non-overlapping matches: the behaviour of `content.replace("\r\n", "\n")`
used to normalize line endings before slicing by AST byte offsets. -/
def normalizeCrlfList : List Char → List Char
  | [] => []
  | '\r' :: '\n' :: rest => '\n' :: normalizeCrlfList rest
  | c :: rest => c :: normalizeCrlfList rest

/-- The CRLF normalization on strings. -/
def normalizeCrlf (s : String) : String :=
  String.mk (normalizeCrlfList s.data)

/-- Second worklist loop: pop from the end while more than one node remains;
a function-definition node whose name equals the target slices the bytes
`[start, start+length)` out of the normalized content — its missing
source-location fields are `expect`ed (panic), and an end index beyond the
content's byte length makes the Rust slice indexing
`&content.as_bytes()[start..start + length]` panic as well; a
function-definition node with another name is dropped without pushing its
children; any other node is replaced by its children.  Exhaustion is the
defined failure `Function not found`.  `sliceLossy content start length`
stands for the in-bounds `String::from_utf8_lossy` decode of that byte
slice. -/
def findFunctionSrc (sliceLossy : String → Nat → Nat → String)
    (fname : String) (content : String) (wl : List Node) : FnResult :=
  if 1 < wl.length then
    match hlast : wl.getLast? with
    | none => FnResult.err "No node"
    | some node =>
      match node.node_type with
      | NodeType.FunctionDefinition =>
        match node.name with
        | some nm =>
          if nm = fname then
            match node.src.index with
            | none => FnResult.panic "No file index in source location"
            | some _ =>
              match node.src.length with
              | none => FnResult.panic "No length in source location"
              | some len =>
                if node.src.start + len <= utf8Length content then
                  FnResult.ok (sliceLossy content node.src.start len)
                else
                  FnResult.panic "range end index out of range for slice"
          else findFunctionSrc sliceLossy fname content wl.dropLast
        | none => findFunctionSrc sliceLossy fname content wl.dropLast
      | _ => findFunctionSrc sliceLossy fname content (wl.dropLast ++ node.nodes)
  else FnResult.err "Function not found"
termination_by Node.weightList wl
decreasing_by
  all_goals first
    | exact weightList_pop hlast
    | exact weightList_pop_push hlast node.nodes rfl

/-- Search the function source code by contract and function name from the
AST (`PlainContract::source_code_by_contract_and_function_name`). -/
def source_code_by_contract_and_function_name
    (sliceLossy : String → Nat → Nat → String) (c : PlainContract)
    (contract_name function_name : String) : FnResult :=
  match c.compilation_output with
  | none => FnResult.err "No compilation output, did you forget to call compile()?"
  | some out =>
    match out.artifacts.find? (fun e => e.name == contract_name) with
    | none => FnResult.err "Contract not found"
    | some contractEntry =>
      match out.artifacts.find? (fun e => e.name == contract_name) with
      | none => FnResult.err "Artifact not found"
      | some fileEntry =>
        match c.source_files with
        | none => FnResult.err "No source files in PlainContract"
        | some files =>
          match files.find? (fun f => f.name == fileEntry.file) with
          | none => FnResult.err "No source file matches the expected file name"
          | some sf =>
            let nodes_in_source : List Node :=
              (contractEntry.source_ast.map Ast.nodes).getD []
            let content := normalizeCrlf sf.content
            findFunctionSrc sliceLossy function_name content
              (findContractScope contract_name nodes_in_source)

mutual
/-- Whether a node subtree contains a function-definition node whose `name`
attribute equals `fname`. -/
def Node.hasFnDef (fname : String) : Node → Bool
  | .mk t nm _ ns =>
    (decide (t = NodeType.FunctionDefinition) && decide (nm = some fname)) ||
      Node.hasFnDefForest fname ns
/-- Whether a forest contains such a function-definition node. -/
def Node.hasFnDefForest (fname : String) : List Node → Bool
  | [] => false
  | n :: ns => Node.hasFnDef fname n || Node.hasFnDefForest fname ns
end

mutual
/-- Whether, in a node subtree, every contract-definition node named `cname`
is free of function-definition nodes named `fname`; this expresses that the
function does not exist in the named contract's AST. -/
def Node.scopeFree (cname fname : String) : Node → Bool
  | .mk t nm _ ns =>
    (if t = NodeType.ContractDefinition ∧ nm = some cname
     then !(Node.hasFnDefForest fname ns) else true) &&
      Node.scopeFreeForest cname fname ns
/-- The forest version of `Node.scopeFree`. -/
def Node.scopeFreeForest (cname fname : String) : List Node → Bool
  | [] => true
  | n :: ns => Node.scopeFree cname fname n && Node.scopeFreeForest cname fname ns
end

mutual
/-- Whether every node of a subtree carries both optional source-location
fields, so that the `expect` calls of the extraction cannot panic. -/
def Node.srcOk : Node → Bool
  | .mk _ _ src ns =>
    (src.index.isSome && src.length.isSome) && Node.srcOkForest ns
/-- The forest version of `Node.srcOk`. -/
def Node.srcOkForest : List Node → Bool
  | [] => true
  | n :: ns => Node.srcOk n && Node.srcOkForest ns
end

mutual
/-- Whether every node of a subtree has its byte span `[start,
start+length)` inside a content of `len` bytes, so that the Rust byte-slice
indexing of the extraction cannot panic. -/
def Node.srcBounded (len : Nat) : Node → Bool
  | .mk _ _ src ns =>
    (src.start + src.length.getD 0 <= len) && Node.srcBoundedForest len ns
/-- The forest version of `Node.srcBounded`. -/
def Node.srcBoundedForest (len : Nat) : List Node → Bool
  | [] => true
  | n :: ns => Node.srcBounded len n && Node.srcBoundedForest len ns
end

/-! ## FunctionExtractor: ABI traversal (`PlainContract::extract_functions`) -/

/-- Embedding of a Rust computation that either produces a value or panics;
a panic inside a per-function lookup propagates out of `extract_functions`
(Rust's `unwrap_or` catches only `Err`, never a panic). -/
inductive PanicOr (α : Type) where
  | panic (msg : String)
  | value (a : α)
deriving DecidableEq, Repr

/-- Maps a panic-propagating computation over a list. -/
def mapPanic {α β : Type} (g : α → PanicOr β) : List α → PanicOr (List β)
  | [] => PanicOr.value []
  | a :: as =>
    match g a with
    | PanicOr.panic m => PanicOr.panic m
    | PanicOr.value b =>
      match mapPanic g as with
      | PanicOr.panic m => PanicOr.panic m
      | PanicOr.value bs => PanicOr.value (b :: bs)

/-- The `.unwrap_or("".into())` applied to the source lookup in
`extract_functions`: an error value degrades to the empty string, a panic
propagates. -/
def unwrapOrEmpty : FnResult → PanicOr String
  | FnResult.ok s => PanicOr.value s
  | FnResult.err _ => PanicOr.value ""
  | FnResult.panic m => PanicOr.panic m

/-- One `ContractFunction` of `extract_functions`: the source text is looked
up by contract and function name and degraded to `""` on error. -/
def extractOne (digest : String → String) (keccak4 : String → Nat)
    (sliceLossy : String → Nat → Nat → String) (c : PlainContract)
    (contract_id : String) (filename : String) (contract_name : String)
    (f : AbiFunction) : PanicOr ContractFunction :=
  match unwrapOrEmpty
      (source_code_by_contract_and_function_name sliceLossy c contract_name
        f.name) with
  | PanicOr.panic m => PanicOr.panic m
  | PanicOr.value source_code =>
    PanicOr.value
      (ContractFunction.from_abi digest keccak4 contract_id filename
        contract_name f source_code)

/-- Return a list of functions from the contract ABI
(`PlainContract::extract_functions`): for every artifact, the file name is
taken from its AST (empty when absent), an artifact without an ABI
contributes no functions, and the per-artifact lists are flattened. -/
def extract_functions (digest : String → String) (keccak4 : String → Nat)
    (sliceLossy : String → Nat → Nat → String) (c : PlainContract) :
    PanicOr (Except String (List ContractFunction)) :=
  match c.compilation_output with
  | none => PanicOr.value (Except.error "No compilation output")
  | some out =>
    let contract_id := c.id digest
    match mapPanic (fun e =>
        let filename := (e.source_ast.map Ast.absolute_path).getD ""
        match e.abi with
        | some abi =>
          mapPanic
            (extractOne digest keccak4 sliceLossy c contract_id filename
              e.name) abi
        | none => PanicOr.value []) out.artifacts with
    | PanicOr.panic m => PanicOr.panic m
    | PanicOr.value groups => PanicOr.value (Except.ok groups.flatten)

/-- The error-containment behaviour the specification describes for
`extract_functions`, written from its words: one row per ABI function of
every artifact, where a function whose source text cannot be recovered gets
an empty `source_code` and every other function is unaffected. -/
def extractAllSpec (digest : String → String) (keccak4 : String → Nat)
    (sliceLossy : String → Nat → Nat → String) (c : PlainContract)
    (out : CompilationOutput) : List ContractFunction :=
  (out.artifacts.map (fun e =>
    let filename := (e.source_ast.map Ast.absolute_path).getD ""
    match e.abi with
    | some abi =>
      abi.map (fun f =>
        let source_code :=
          match source_code_by_contract_and_function_name sliceLossy c
              e.name f.name with
          | FnResult.ok s => s
          | _ => ""
        ContractFunction.from_abi digest keccak4 (c.id digest) filename
          e.name f source_code)
    | none => [])).flatten

/-! ## Claim theorems -/

/-- The whitespace-stripped view of a string, the exact text `simple_hash`
digests. -/
def wsStrip (s : String) : String := String.mk (removeWsRuns s.data)

theorem simple_hash_congr (digest : String → String) {a b : String}
    (h : wsStrip a = wsStrip b) :
    simple_hash digest a = simple_hash digest b :=
  congrArg digest h

/-- C4: the identity hash of every one of the four contract-source variants
depends only on the whitespace-stripped content of its constituent files:
replacing any file content by one equal to it after removal of all whitespace
runs (in particular, inserting or removing whitespace runs anywhere) leaves
the fingerprint unchanged. -/
theorem c4_hash_whitespace_invariant (digest : String → String) :
    (∀ n1 n2 c1 c2, wsStrip c1 = wsStrip c2 →
      ContractSource.hash digest (ContractSource.SingleSolidity ⟨n1, c1⟩) =
        ContractSource.hash digest (ContractSource.SingleSolidity ⟨n2, c2⟩)) ∧
    (∀ n1 n2 c1 c2, wsStrip c1 = wsStrip c2 →
      ContractSource.hash digest (ContractSource.Vyper ⟨n1, c1⟩) =
        ContractSource.hash digest (ContractSource.Vyper ⟨n2, c2⟩)) ∧
    (∀ n1 n2 c1 c2, wsStrip c1 = wsStrip c2 →
      ContractSource.hash digest (ContractSource.Json ⟨n1, c1⟩) =
        ContractSource.hash digest (ContractSource.Json ⟨n2, c2⟩)) ∧
    (∀ fs1 fs2 : List SourceFile,
      List.Forall₂ (fun f g => wsStrip f.content = wsStrip g.content) fs1 fs2 →
      ContractSource.hash digest (ContractSource.MultiSolidity fs1) =
        ContractSource.hash digest (ContractSource.MultiSolidity fs2)) := by
  refine ⟨?_, ?_, ?_, ?_⟩
  · intro n1 n2 c1 c2 h
    exact simple_hash_congr digest h
  · intro n1 n2 c1 c2 h
    exact simple_hash_congr digest h
  · intro n1 n2 c1 c2 h
    exact simple_hash_congr digest h
  · intro fs1 fs2 h
    have hmap : fs1.map (fun f => simple_hash digest f.content) =
        fs2.map (fun f => simple_hash digest f.content) := by
      induction h with
      | nil => rfl
      | cons hfg _ ih =>
        rw [List.map_cons, List.map_cons, ih,
          simple_hash_congr digest hfg]
    simp only [ContractSource.hash]
    rw [hmap]

/-- Closed instance of the whitespace-invariance theorem on every variant,
with the identity digest. -/
theorem c4_hash_whitespace_invariant_witness :
    ContractSource.hash (fun s => s)
        (ContractSource.SingleSolidity ⟨"a", "x y"⟩) =
      ContractSource.hash (fun s => s)
        (ContractSource.SingleSolidity ⟨"b", "  x\n y\t"⟩) ∧
    ContractSource.hash (fun s => s) (ContractSource.Vyper ⟨"a", "p q"⟩) =
      ContractSource.hash (fun s => s) (ContractSource.Vyper ⟨"a", "pq"⟩) ∧
    ContractSource.hash (fun s => s) (ContractSource.Json ⟨"a", " {}"⟩) =
      ContractSource.hash (fun s => s) (ContractSource.Json ⟨"a", "{}"⟩) ∧
    ContractSource.hash (fun s => s)
        (ContractSource.MultiSolidity [⟨"a", "u v"⟩, ⟨"b", "w"⟩]) =
      ContractSource.hash (fun s => s)
        (ContractSource.MultiSolidity [⟨"a", "uv"⟩, ⟨"b", " w "⟩]) := by
  refine ⟨?_, ?_, ?_, ?_⟩
  · exact (c4_hash_whitespace_invariant (fun s => s)).1 "a" "b" "x y" "  x\n y\t"
      (by simp [wsStrip, removeWsRuns_eq_filter]; decide)
  · exact (c4_hash_whitespace_invariant (fun s => s)).2.1 "a" "a" "p q" "pq"
      (by simp [wsStrip, removeWsRuns_eq_filter]; decide)
  · exact (c4_hash_whitespace_invariant (fun s => s)).2.2.1 "a" "a" " {}" "{}"
      (by simp [wsStrip, removeWsRuns_eq_filter]; decide)
  · exact (c4_hash_whitespace_invariant (fun s => s)).2.2.2
      [⟨"a", "u v"⟩, ⟨"b", "w"⟩] [⟨"a", "uv"⟩, ⟨"b", " w "⟩]
      (by
        refine List.Forall₂.cons ?_ (List.Forall₂.cons ?_ List.Forall₂.nil) <;>
          simp [wsStrip, removeWsRuns_eq_filter] <;> decide)

/-- C5: the identity hash of a multi-file source is invariant under
permutation of its file list: the per-file hashes are sorted before joining,
so any reordering of the files produces the same fingerprint. -/
theorem c5_hash_order_invariant (digest : String → String)
    (fs1 fs2 : List SourceFile) (h : fs1.Perm fs2) :
    ContractSource.hash digest (ContractSource.MultiSolidity fs1) =
      ContractSource.hash digest (ContractSource.MultiSolidity fs2) := by
  have hperm : (List.insertionSort strLeProp
        (fs1.map (fun f => simple_hash digest f.content))).Perm
      (List.insertionSort strLeProp
        (fs2.map (fun f => simple_hash digest f.content))) := by
    refine ((List.perm_insertionSort strLeProp _).trans ?_).trans
      (List.perm_insertionSort strLeProp _).symm
    exact h.map _
  have heq := List.eq_of_perm_of_sorted hperm
    (List.sorted_insertionSort strLeProp _)
    (List.sorted_insertionSort strLeProp _)
  simp only [ContractSource.hash]
  rw [heq]

/-- Closed instance of the order-invariance theorem: swapping two files of a
multi-file source leaves the hash unchanged. -/
theorem c5_hash_order_invariant_witness :
    ContractSource.hash (fun s => s)
        (ContractSource.MultiSolidity [⟨"a", "xx"⟩, ⟨"b", "yy"⟩]) =
      ContractSource.hash (fun s => s)
        (ContractSource.MultiSolidity [⟨"b", "yy"⟩, ⟨"a", "xx"⟩]) :=
  c5_hash_order_invariant (fun s => s) [⟨"a", "xx"⟩, ⟨"b", "yy"⟩]
    [⟨"b", "yy"⟩, ⟨"a", "xx"⟩] (by decide)

/-- C9: the contract identity is a function of the source alone; two
contracts with the same `ContractSource` but arbitrarily different metadata
(and transient compile state) have the same `id` and `hash`. -/
theorem c9_id_independent_of_metadata (digest : String → String)
    (m1 m2 : Metadata) (src : ContractSource)
    (co1 co2 : Option CompilationOutput)
    (sf1 sf2 : Option (List SourceFile)) :
    PlainContract.id digest ⟨m1, src, co1, sf1⟩ =
        PlainContract.id digest ⟨m2, src, co2, sf2⟩ ∧
    PlainContract.hash digest ⟨m1, src, co1, sf1⟩ =
        PlainContract.hash digest ⟨m2, src, co2, sf2⟩ :=
  ⟨rfl, rfl⟩

/-! ### Store lemmas -/

theorem insertOrIgnore_of_present {α : Type} (key : α → String)
    (t : List α) (r : α) (h : t.any (fun x => key x = key r) = true) :
    insertOrIgnore key t r = t := by
  simp only [insertOrIgnore, h, if_true]

theorem insertOrIgnore_of_absent {α : Type} (key : α → String)
    (t : List α) (r : α) (h : ¬ t.any (fun x => key x = key r) = true) :
    insertOrIgnore key t r = t ++ [r] := by
  simp only [insertOrIgnore]
  rw [if_neg h]

theorem any_key_mono {α : Type} (key : α → String) (t : List α) (r : α)
    (k : String) (h : t.any (fun x => key x = k) = true) :
    (insertOrIgnore key t r).any (fun x => key x = k) = true := by
  by_cases hp : t.any (fun x => key x = key r) = true
  · rw [insertOrIgnore_of_present key t r hp]; exact h
  · rw [insertOrIgnore_of_absent key t r hp, List.any_append]
    simp [h]

theorem foldl_insertOrIgnore_mono {α β : Type} (key : α → String)
    (g : β → α) (rows : List β) (t : List α) (k : String)
    (h : t.any (fun x => key x = k) = true) :
    (rows.foldl (fun t c => insertOrIgnore key t (g c)) t).any
      (fun x => key x = k) = true := by
  induction rows generalizing t with
  | nil => exact h
  | cons a as ih =>
    exact ih _ (any_key_mono key t (g a) k h)

theorem foldl_insertOrIgnore_all_present {α β : Type} (key : α → String)
    (g : β → α) (rows : List β) (t : List α) :
    ∀ c ∈ rows,
      (rows.foldl (fun t c => insertOrIgnore key t (g c)) t).any
        (fun x => key x = key (g c)) = true := by
  induction rows generalizing t with
  | nil => intro c hc; simp at hc
  | cons a as ih =>
    intro c hc
    rcases List.mem_cons.mp hc with rfl | hmem
    · simp only [List.foldl_cons]
      apply foldl_insertOrIgnore_mono
      by_cases hp : t.any (fun x => key x = key (g c)) = true
      · exact any_key_mono key t (g c) _ hp
      · rw [insertOrIgnore_of_absent key t (g c) hp, List.any_append]
        simp
    · exact ih _ c hmem

theorem foldl_insertOrIgnore_of_all_present {α β : Type} (key : α → String)
    (g : β → α) (rows : List β) (t : List α)
    (h : ∀ c ∈ rows, t.any (fun x => key x = key (g c)) = true) :
    rows.foldl (fun t c => insertOrIgnore key t (g c)) t = t := by
  induction rows with
  | nil => rfl
  | cons a as ih =>
    simp only [List.foldl_cons]
    rw [insertOrIgnore_of_present key t (g a) (h a (by simp))]
    exact ih fun c hc => h c (List.mem_cons_of_mem a hc)

theorem keysNodup_insertOrIgnore {α : Type} (key : α → String)
    (t : List α) (r : α) (h : keysNodup key t) :
    keysNodup key (insertOrIgnore key t r) := by
  by_cases hp : t.any (fun x => key x = key r) = true
  · rw [insertOrIgnore_of_present key t r hp]; exact h
  · rw [insertOrIgnore_of_absent key t r hp]
    simp only [keysNodup, List.map_append, List.map_cons, List.map_nil] at *
    rw [List.nodup_append]
    refine ⟨h, List.nodup_singleton _, ?_⟩
    intro k hk
    simp only [List.mem_singleton]
    intro heq
    apply hp
    rw [List.any_eq_true]
    rcases List.mem_map.mp hk with ⟨x, hx, hkx⟩
    exact ⟨x, hx, by simp [hkx, heq]⟩

theorem keysNodup_foldl_insertOrIgnore {α β : Type} (key : α → String)
    (g : β → α) (rows : List β) (t : List α) (h : keysNodup key t) :
    keysNodup key (rows.foldl (fun t c => insertOrIgnore key t (g c)) t) := by
  induction rows generalizing t with
  | nil => exact h
  | cons a as ih =>
    exact ih _ (keysNodup_insertOrIgnore key t (g a) h)

/-- C2: bulk storage is idempotent insert-or-ignore.  Re-running
`store_contracts` with the same contract set leaves the table (hence
`count_contracts`) unchanged, the primary-key column stays duplicate-free
(one row per distinct identity hash), and `store_functions` behaves the same
way keyed by the function id. -/
theorem c2_store_idempotent (digest : String → String)
    (table : List ContractRow) (ftable : List ContractFunction)
    (cs : List PlainContract) (fs : List ContractFunction)
    (hc : keysNodup ContractRow.id table)
    (hf : keysNodup ContractFunction.id ftable) :
    store_contracts digest (store_contracts digest table cs) cs =
        store_contracts digest table cs ∧
    count_contracts (store_contracts digest (store_contracts digest table cs)
        cs) = count_contracts (store_contracts digest table cs) ∧
    keysNodup ContractRow.id (store_contracts digest table cs) ∧
    (∀ c ∈ cs, (store_contracts digest table cs).any
      (fun r => r.id = PlainContract.hash digest c) = true) ∧
    store_functions (store_functions ftable fs) fs =
        store_functions ftable fs ∧
    keysNodup ContractFunction.id (store_functions ftable fs) := by
  have hcid : store_contracts digest (store_contracts digest table cs) cs =
      store_contracts digest table cs := by
    apply foldl_insertOrIgnore_of_all_present
    intro c hcmem
    exact foldl_insertOrIgnore_all_present ContractRow.id
      (contractRow digest) cs table c hcmem
  have hfid : store_functions (store_functions ftable fs) fs =
      store_functions ftable fs := by
    apply foldl_insertOrIgnore_of_all_present ContractFunction.id id
    intro f hfmem
    exact foldl_insertOrIgnore_all_present ContractFunction.id id
      fs ftable f hfmem
  refine ⟨hcid, congrArg List.length hcid, ?_, ?_, hfid, ?_⟩
  · exact keysNodup_foldl_insertOrIgnore _ _ cs table hc
  · intro c hcmem
    exact foldl_insertOrIgnore_all_present ContractRow.id
      (contractRow digest) cs table c hcmem
  · exact keysNodup_foldl_insertOrIgnore _ _ fs ftable hf

/-- Closed instance of the idempotent-storage theorem: one duplicated
contract and one duplicated function row, stored twice over empty tables. -/
theorem c2_store_idempotent_witness :
    (let digest := fun s : String => s
     let cs := [PlainContract.new ⟨"C", "v0.8.0", 200, true, "bh"⟩
         (ContractSource.SingleSolidity ⟨"main.sol", "contract C {}"⟩),
       PlainContract.new ⟨"D", "v0.8.1", 1, false, "bh2"⟩
         (ContractSource.SingleSolidity ⟨"main.sol", "contract C {}"⟩)]
     let fs := [(⟨"f1", "c1", "C", "f", "main.sol", "f()", "0x12345678",
       ""⟩ : ContractFunction)]
     store_contracts digest (store_contracts digest [] cs) cs =
         store_contracts digest [] cs ∧
       count_contracts (store_contracts digest (store_contracts digest [] cs)
           cs) = count_contracts (store_contracts digest [] cs) ∧
       keysNodup ContractRow.id (store_contracts digest [] cs) ∧
       (∀ c ∈ cs, (store_contracts digest [] cs).any
         (fun r => r.id = PlainContract.hash digest c) = true) ∧
       store_functions (store_functions [] fs) fs = store_functions [] fs ∧
       keysNodup ContractFunction.id (store_functions [] fs)) :=
  c2_store_idempotent (fun s => s) [] [] _ _ (by simp [keysNodup])
    (by simp [keysNodup])

/-! ### Pagination lemmas -/

theorem index_functions_pages_eq_drop (table : List ContractRow) (size : Nat)
    (hsize : 0 < size) (i : Nat) :
    index_functions_pages table size hsize i = table.drop i := by
  induction i using index_functions_pages.induct table size hsize with
  | case1 i hlt ih =>
    rw [index_functions_pages, if_pos hlt, ih]
    have hdd : (table.drop i).drop size = table.drop (i + size) := by
      rw [List.drop_drop]
    rw [← hdd, List.take_append_drop]
  | case2 i hge =>
    rw [index_functions_pages, if_neg hge]
    have : table.length ≤ i := by
      simp only [count_contracts] at hge
      omega
    exact (List.drop_eq_nil_of_le this).symm

/-- C3: the pagination loop of `index_functions` reads pages at offsets
`0, P, 2P, ...` until the offset reaches `count_contracts` and, in doing so,
visits exactly the stored contract list: every stored contract once, none
skipped, none repeated, and zero pages when the store is empty. -/
theorem c3_pagination_visits_all (table : List ContractRow) (size : Nat)
    (hsize : 0 < size) :
    index_functions_visited table size hsize = table ∧
    (∀ r : ContractRow,
      (index_functions_visited table size hsize).count r = table.count r) ∧
    (table = [] → index_functions_visited table size hsize = []) := by
  have h0 : index_functions_visited table size hsize = table := by
    rw [index_functions_visited, index_functions_pages_eq_drop]
    exact List.drop_zero table
  exact ⟨h0, fun r => by rw [h0], fun he => by rw [h0, he]⟩

/-- Closed instance of the pagination theorem: three contracts, page size
two. -/
theorem c3_pagination_visits_all_witness :
    (let row := fun n : String =>
       (⟨n, n, ⟨n, "v", 0, false, "b"⟩,
         ContractSource.SingleSolidity ⟨"main.sol", n⟩,
         "single_sol"⟩ : ContractRow)
     index_functions_visited [row "a", row "b", row "c"] 2 (by decide) =
       [row "a", row "b", row "c"]) :=
  (c3_pagination_visits_all _ 2 (by decide)).1

/-- C10: the function id built by `from_abi` is the hash of contract id,
filename and rendered selector only: two ABI functions with the same selector
digest get the same id whatever their names, signatures, contract names or
recovered source texts are; storing both rows through the insert-or-ignore
`store_functions` keeps only the first. -/
theorem c10_function_id_depends_on_triple (digest : String → String)
    (keccak4 : String → Nat) (contract_id filename : String)
    (cn1 cn2 : String) (f1 f2 : AbiFunction) (sc1 sc2 : String)
    (hsel : keccak4 f1.signature = keccak4 f2.signature) :
    (ContractFunction.from_abi digest keccak4 contract_id filename cn1 f1
        sc1).id =
      (ContractFunction.from_abi digest keccak4 contract_id filename cn2 f2
        sc2).id ∧
    store_functions []
        [ContractFunction.from_abi digest keccak4 contract_id filename cn1 f1
          sc1,
         ContractFunction.from_abi digest keccak4 contract_id filename cn2 f2
          sc2] =
      [ContractFunction.from_abi digest keccak4 contract_id filename cn1 f1
        sc1] := by
  have hid : (ContractFunction.from_abi digest keccak4 contract_id filename
      cn1 f1 sc1).id =
      (ContractFunction.from_abi digest keccak4 contract_id filename cn2 f2
        sc2).id := by
    simp only [ContractFunction.from_abi, hsel]
  refine ⟨hid, ?_⟩
  have h1 : insertOrIgnore ContractFunction.id []
      (ContractFunction.from_abi digest keccak4 contract_id filename cn1 f1
        sc1) =
      [ContractFunction.from_abi digest keccak4 contract_id filename cn1 f1
        sc1] := by
    rw [insertOrIgnore_of_absent _ _ _ (by simp)]
    rfl
  simp only [store_functions, List.foldl_cons, List.foldl_nil]
  rw [h1]
  exact insertOrIgnore_of_present _ _ _ (by simp [List.any_cons, hid])

/-- Closed instance of the function-id theorem: two differently named
functions whose selector digests collide produce one surviving row. -/
theorem c10_function_id_depends_on_triple_witness :
    ((ContractFunction.from_abi (fun s => s) (fun _ => 0) "cid" "main.sol"
        "A" ⟨"f", []⟩ "src1").id =
      (ContractFunction.from_abi (fun s => s) (fun _ => 0) "cid" "main.sol"
        "B" ⟨"g", ["uint256"]⟩ "src2").id ∧
    store_functions []
        [ContractFunction.from_abi (fun s => s) (fun _ => 0) "cid" "main.sol"
          "A" ⟨"f", []⟩ "src1",
         ContractFunction.from_abi (fun s => s) (fun _ => 0) "cid" "main.sol"
          "B" ⟨"g", ["uint256"]⟩ "src2"] =
      [ContractFunction.from_abi (fun s => s) (fun _ => 0) "cid" "main.sol"
        "A" ⟨"f", []⟩ "src1"]) :=
  c10_function_id_depends_on_triple (fun s => s) (fun _ => 0) "cid"
    "main.sol" "A" "B" ⟨"f", []⟩ ⟨"g", ["uint256"]⟩ "src1" "src2" rfl

/-- C7: ingestion from a folder picks the source shape in the fixed priority
order `contract.json`, `main.sol`, `main.vy`, the first present file winning
(in particular a structured document beats any loose sources), and only when
all three are absent collects every sibling `.sol` file as a multi-file
contract. -/
theorem c7_from_folder_priority (folder : Folder) (md : Metadata)
    (hmd : folder.metadata = some md) :
    (∀ cj, folder.contract_json = some cj →
      PlainContract.from_folder folder =
        Except.ok (PlainContract.new md
          (ContractSource.Json ⟨"contract.json", cj⟩))) ∧
    (∀ s, folder.contract_json = none → folder.main_sol = some s →
      PlainContract.from_folder folder =
        Except.ok (PlainContract.new md
          (ContractSource.SingleSolidity ⟨"main.sol", s⟩))) ∧
    (∀ v, folder.contract_json = none → folder.main_sol = none →
      folder.main_vy = some v →
      PlainContract.from_folder folder =
        Except.ok (PlainContract.new md
          (ContractSource.Vyper ⟨"main.vy", v⟩))) ∧
    (folder.contract_json = none → folder.main_sol = none →
      folder.main_vy = none →
      PlainContract.from_folder folder =
        Except.ok (PlainContract.new md (ContractSource.MultiSolidity
          (folder.files.filter
            (fun f => fileExtension f.name = some "sol"))))) := by
  refine ⟨?_, ?_, ?_, ?_⟩
  · intro cj h1
    simp [PlainContract.from_folder, hmd, h1]
  · intro s h1 h2
    simp [PlainContract.from_folder, hmd, h1, h2]
  · intro v h1 h2 h3
    simp [PlainContract.from_folder, hmd, h1, h2, h3]
  · intro h1 h2 h3
    simp [PlainContract.from_folder, hmd, h1, h2, h3,
      source_from_multi_source_contract]

/-- Closed instance of the ingestion-priority theorem: a directory holding a
structured document and both loose single files still resolves to the
structured document. -/
theorem c7_from_folder_priority_witness :
    PlainContract.from_folder
        { metadata := some ⟨"C", "v0.8.0", 0, false, "b"⟩,
          contract_json := some "{}",
          main_sol := some "contract C {}",
          main_vy := some "# vy",
          files := [⟨"x.sol", "contract X {}"⟩] } =
      Except.ok (PlainContract.new ⟨"C", "v0.8.0", 0, false, "b"⟩
        (ContractSource.Json ⟨"contract.json", "{}"⟩)) :=
  (c7_from_folder_priority _ _ rfl).1 "{}" rfl

/-! ### Path-safety lemmas -/

theorem mem_stripRootDir {c : Comp} {l : List Comp}
    (h : c ∈ stripRootDir l) : c ∈ l := by
  match l with
  | [] => exact h
  | Comp.rootDir :: rest => exact List.mem_cons_of_mem _ h
  | Comp.curDir :: rest => exact h
  | Comp.parentDir :: rest => exact h
  | Comp.normal s :: rest => exact h

theorem root_not_mem_body (pieces : List String) :
    Comp.rootDir ∉
      (pieces.map pieceToComp).filter (fun c => c ≠ Comp.curDir) := by
  intro hmem
  have hmem2 := (List.mem_filter.mp hmem).1
  rcases List.mem_map.mp hmem2 with ⟨p, _, hp⟩
  unfold pieceToComp at hp
  split_ifs at hp

theorem componentsBody_no_root (s : String) :
    Comp.rootDir ∉ componentsBody s :=
  root_not_mem_body _

theorem pathComponents_shape (s : String) :
    ∃ body : List Comp, Comp.rootDir ∉ body ∧
      (pathComponents s = Comp.rootDir :: body ∨
       pathComponents s = Comp.curDir :: body ∨
       pathComponents s = body) := by
  refine ⟨componentsBody s, componentsBody_no_root s, ?_⟩
  unfold pathComponents
  split
  · exact Or.inl rfl
  · split
    · exact Or.inr (Or.inl rfl)
    · exact Or.inr (Or.inr rfl)

theorem sanitize_path_components_safe (s : String) :
    Comp.parentDir ∉ sanitize_path s ∧ Comp.rootDir ∉ sanitize_path s := by
  obtain ⟨body, hnb, hshape⟩ := pathComponents_shape s
  constructor
  · intro hmem
    have h1 := mem_stripRootDir hmem
    have h2 := (List.mem_filter.mp h1).2
    simp [Comp.osStr] at h2
  · intro hmem
    unfold sanitize_path at hmem
    have hfb : Comp.rootDir ∉ body.filter (fun x => x.osStr ≠ "..") :=
      fun hm => hnb (List.mem_filter.mp hm).1
    rcases hshape with h | h | h <;> rw [h] at hmem
    · rw [List.filter_cons] at hmem
      simp only [Comp.osStr] at hmem
      rw [if_pos (by decide)] at hmem
      exact hfb (by exact hmem)
    · rw [List.filter_cons] at hmem
      simp only [Comp.osStr] at hmem
      rw [if_pos (by decide)] at hmem
      rcases List.mem_cons.mp (mem_stripRootDir hmem) with h2 | h2
      · exact absurd h2 (by decide)
      · exact hfb h2
    · exact hfb (mem_stripRootDir hmem)

theorem withSolExtension_safe (l : List Comp)
    (hp : Comp.parentDir ∉ l) (hr : Comp.rootDir ∉ l) :
    Comp.parentDir ∉ withSolExtension l ∧
      Comp.rootDir ∉ withSolExtension l := by
  induction l with
  | nil => simp [withSolExtension]
  | cons c rest ih =>
    have hp2 : Comp.parentDir ∉ rest := fun h => hp (List.mem_cons_of_mem _ h)
    have hr2 : Comp.rootDir ∉ rest := fun h => hr (List.mem_cons_of_mem _ h)
    have hcp : c ≠ Comp.parentDir := fun h => hp (h ▸ List.mem_cons_self _ _)
    have hcr : c ≠ Comp.rootDir := fun h => hr (h ▸ List.mem_cons_self _ _)
    cases rest with
    | nil =>
      cases c with
      | rootDir => exact absurd rfl hcr
      | parentDir => exact absurd rfl hcp
      | curDir => simp [withSolExtension]
      | normal s => simp [withSolExtension]
    | cons d ds =>
      have hih := ih hp2 hr2
      cases c with
      | rootDir => exact absurd rfl hcr
      | parentDir => exact absurd rfl hcp
      | curDir =>
        rw [show withSolExtension (Comp.curDir :: d :: ds) =
            Comp.curDir :: withSolExtension (d :: ds) from rfl]
        constructor
        · intro hm
          rcases List.mem_cons.mp hm with h2 | h2
          · exact absurd h2.symm (by decide)
          · exact hih.1 h2
        · intro hm
          rcases List.mem_cons.mp hm with h2 | h2
          · exact absurd h2.symm (by decide)
          · exact hih.2 h2
      | normal s =>
        rw [show withSolExtension (Comp.normal s :: d :: ds) =
            Comp.normal s :: withSolExtension (d :: ds) from rfl]
        constructor
        · intro hm
          rcases List.mem_cons.mp hm with h2 | h2
          · exact absurd h2.symm (by simp)
          · exact hih.1 h2
        · intro hm
          rcases List.mem_cons.mp hm with h2 | h2
          · exact absurd h2.symm (by simp)
          · exact hih.2 h2

theorem write_entry_path_safe (entries : List SourceFile)
    (entry : SourceFile) :
    Comp.parentDir ∉ write_entry_path entries entry ∧
      Comp.rootDir ∉ write_entry_path entries entry := by
  have h := sanitize_path_components_safe entry.name
  unfold write_entry_path
  split
  · split
    · exact withSolExtension_safe _ h.1 h.2
    · exact h
  · exact h

theorem resolvePath_keeps_base {l : List Comp}
    (hp : Comp.parentDir ∉ l) (hr : Comp.rootDir ∉ l) :
    ∀ base : List String, base <+: resolvePath base l := by
  induction l with
  | nil => intro base; exact List.prefix_refl base
  | cons c rest ih =>
    intro base
    have hp2 : Comp.parentDir ∉ rest := fun h => hp (List.mem_cons_of_mem _ h)
    have hr2 : Comp.rootDir ∉ rest := fun h => hr (List.mem_cons_of_mem _ h)
    cases c with
    | rootDir => exact absurd (List.mem_cons_self _ _) hr
    | parentDir => exact absurd (List.mem_cons_self _ _) hp
    | curDir => exact ih hp2 hr2 base
    | normal s =>
      exact (List.prefix_append base [s]).trans (ih hp2 hr2 (base ++ [s]))

/-- C6: path sanitization confines every materialized file to the target
directory: for every file name the sanitized path contains no
parent-directory and no root component, the full per-entry write path of
`write_entries` (default extension included) still resolves to a path that
extends the target directory, and the two concrete attack names of the
specification land inside the target. -/
theorem c6_sanitize_path_confines :
    (∀ name : String, Comp.parentDir ∉ sanitize_path name ∧
      Comp.rootDir ∉ sanitize_path name) ∧
    (∀ (base : List String) (entries : List SourceFile)
      (entry : SourceFile), base <+: resolvePath base
        (write_entry_path entries entry)) ∧
    resolvePath ["tmp", "target"] (sanitize_path "../../etc/passwd") =
      ["tmp", "target", "etc", "passwd"] ∧
    resolvePath ["tmp", "target"] (sanitize_path "/abs/path") =
      ["tmp", "target", "abs", "path"] := by
  refine ⟨sanitize_path_components_safe, ?_, by decide, by decide⟩
  intro base entries entry
  have h := write_entry_path_safe entries entry
  exact resolvePath_keeps_base h.1 h.2 base

/-! ### AST-search lemmas -/

theorem mem_of_getLast?_aux {α : Type} {l : List α} {a : α}
    (h : l.getLast? = some a) : a ∈ l := by
  rw [getLast?_decomp h]
  exact List.mem_append_right _ (List.mem_singleton_self a)

theorem hasFnDefForest_false_iff (fname : String) (l : List Node) :
    Node.hasFnDefForest fname l = false ↔
      ∀ n ∈ l, Node.hasFnDef fname n = false := by
  induction l with
  | nil => simp [Node.hasFnDefForest]
  | cons a as ih =>
    rw [Node.hasFnDefForest, Bool.or_eq_false_iff, ih]
    constructor
    · rintro ⟨h1, h2⟩ n hn
      rcases List.mem_cons.mp hn with rfl | hn
      · exact h1
      · exact h2 n hn
    · intro h
      exact ⟨h a (List.mem_cons_self _ _),
        fun n hn => h n (List.mem_cons_of_mem _ hn)⟩

theorem scopeFreeForest_true_iff (cname fname : String) (l : List Node) :
    Node.scopeFreeForest cname fname l = true ↔
      ∀ n ∈ l, Node.scopeFree cname fname n = true := by
  induction l with
  | nil => simp [Node.scopeFreeForest]
  | cons a as ih =>
    rw [Node.scopeFreeForest, Bool.and_eq_true, ih]
    constructor
    · rintro ⟨h1, h2⟩ n hn
      rcases List.mem_cons.mp hn with rfl | hn
      · exact h1
      · exact h2 n hn
    · intro h
      exact ⟨h a (List.mem_cons_self _ _),
        fun n hn => h n (List.mem_cons_of_mem _ hn)⟩

theorem srcOkForest_true_iff (l : List Node) :
    Node.srcOkForest l = true ↔ ∀ n ∈ l, Node.srcOk n = true := by
  induction l with
  | nil => simp [Node.srcOkForest]
  | cons a as ih =>
    rw [Node.srcOkForest, Bool.and_eq_true, ih]
    constructor
    · rintro ⟨h1, h2⟩ n hn
      rcases List.mem_cons.mp hn with rfl | hn
      · exact h1
      · exact h2 n hn
    · intro h
      exact ⟨h a (List.mem_cons_self _ _),
        fun n hn => h n (List.mem_cons_of_mem _ hn)⟩

theorem scopeFree_children {cname fname : String} {n : Node}
    (h : Node.scopeFree cname fname n = true) :
    Node.scopeFreeForest cname fname n.nodes = true := by
  cases n with
  | mk t nm src ns =>
    rw [Node.scopeFree, Bool.and_eq_true] at h
    exact h.2

theorem hasFnDef_children {fname : String} {n : Node}
    (h : Node.hasFnDef fname n = false) :
    Node.hasFnDefForest fname n.nodes = false := by
  cases n with
  | mk t nm src ns =>
    rw [Node.hasFnDef, Bool.or_eq_false_iff] at h
    exact h.2

theorem srcOk_children {n : Node} (h : Node.srcOk n = true) :
    Node.srcOkForest n.nodes = true := by
  cases n with
  | mk t nm src ns =>
    rw [Node.srcOk, Bool.and_eq_true] at h
    exact h.2

theorem srcBoundedForest_true_iff (len : Nat) (l : List Node) :
    Node.srcBoundedForest len l = true ↔
      ∀ n ∈ l, Node.srcBounded len n = true := by
  induction l with
  | nil => simp [Node.srcBoundedForest]
  | cons a as ih =>
    rw [Node.srcBoundedForest, Bool.and_eq_true, ih]
    constructor
    · rintro ⟨h1, h2⟩ n hn
      rcases List.mem_cons.mp hn with rfl | hn
      · exact h1
      · exact h2 n hn
    · intro h
      exact ⟨h a (List.mem_cons_self _ _),
        fun n hn => h n (List.mem_cons_of_mem _ hn)⟩

theorem srcBounded_children {len : Nat} {n : Node}
    (h : Node.srcBounded len n = true) :
    Node.srcBoundedForest len n.nodes = true := by
  cases n with
  | mk t nm src ns =>
    rw [Node.srcBounded, Bool.and_eq_true] at h
    exact h.2

theorem forest_pred_pop_push {wl : List Node} {node : Node}
    {P : Node → Prop} (hlast : wl.getLast? = some node)
    (hall : ∀ n ∈ wl, P n) (hch : ∀ n ∈ node.nodes, P n) :
    ∀ n ∈ wl.dropLast ++ node.nodes, P n := by
  intro n hn
  rcases List.mem_append.mp hn with hn | hn
  · exact hall n ((List.dropLast_sublist wl).mem hn)
  · exact hch n hn

theorem findContractScope_scopeFree {cname fname : String} {wl : List Node}
    (h : Node.scopeFreeForest cname fname wl = true) :
    Node.hasFnDefForest fname (findContractScope cname wl) = false := by
  induction wl using findContractScope.induct cname with
  | case1 wl hlen hlast =>
    rw [findContractScope, if_pos hlen, hlast]
    simp [Node.hasFnDefForest]
  | case2 wl hlen node hlast hcond =>
    rw [findContractScope, if_pos hlen, hlast]
    show Node.hasFnDefForest fname
      (if node.node_type = NodeType.ContractDefinition ∧
          node.name = some cname
       then node.nodes
       else findContractScope cname (wl.dropLast ++ node.nodes)) = false
    rw [if_pos hcond]
    have hmem := mem_of_getLast?_aux hlast
    have hfree := (scopeFreeForest_true_iff cname fname wl).mp h node hmem
    cases node with
    | mk t nm src ns =>
      rw [Node.scopeFree, Bool.and_eq_true] at hfree
      have := hfree.1
      rw [if_pos ⟨hcond.1, hcond.2⟩] at this
      simpa using this
  | case3 wl hlen node hlast hcond ih =>
    rw [findContractScope, if_pos hlen, hlast]
    show Node.hasFnDefForest fname
      (if node.node_type = NodeType.ContractDefinition ∧
          node.name = some cname
       then node.nodes
       else findContractScope cname (wl.dropLast ++ node.nodes)) = false
    rw [if_neg hcond]
    apply ih
    rw [scopeFreeForest_true_iff]
    have hmem := mem_of_getLast?_aux hlast
    exact forest_pred_pop_push hlast
      ((scopeFreeForest_true_iff cname fname wl).mp h)
      ((scopeFreeForest_true_iff cname fname node.nodes).mp
        (scopeFree_children
          ((scopeFreeForest_true_iff cname fname wl).mp h node hmem)))
  | case4 wl hlen =>
    rw [findContractScope, if_neg hlen]
    simp [Node.hasFnDefForest]

theorem getLast?_none_aux {α : Type} : ∀ {l : List α}, l.getLast? = none → l = []
  | [], _ => rfl
  | [a], h => by simp [List.getLast?_singleton] at h
  | _ :: b :: bs, h => by
    rw [List.getLast?_cons_cons] at h
    exact absurd (getLast?_none_aux h) (by simp)

theorem hasFnDef_matched {fname : String} {n : Node}
    (ht : n.node_type = NodeType.FunctionDefinition)
    (hn : n.name = some fname) : Node.hasFnDef fname n = true := by
  cases n with
  | mk t nm src ns =>
    rw [Node.node_type] at ht
    rw [Node.name] at hn
    rw [Node.hasFnDef, ht, hn]
    simp

theorem findFunctionSrc_step (sliceLossy : String → Nat → Nat → String)
    (fname content : String) {wl : List Node} {node : Node}
    (hlen : 1 < wl.length) (hlast : wl.getLast? = some node) :
    findFunctionSrc sliceLossy fname content wl =
      match node.node_type with
      | NodeType.FunctionDefinition =>
        match node.name with
        | some nm =>
          if nm = fname then
            match node.src.index with
            | none => FnResult.panic "No file index in source location"
            | some _ =>
              match node.src.length with
              | none => FnResult.panic "No length in source location"
              | some len =>
                if node.src.start + len <= utf8Length content then
                  FnResult.ok (sliceLossy content node.src.start len)
                else
                  FnResult.panic "range end index out of range for slice"
          else findFunctionSrc sliceLossy fname content wl.dropLast
        | none => findFunctionSrc sliceLossy fname content wl.dropLast
      | _ => findFunctionSrc sliceLossy fname content
          (wl.dropLast ++ node.nodes) := by
  rw [findFunctionSrc, if_pos hlen, hlast]

theorem findFunctionSrc_err_of_no_match
    (sliceLossy : String → Nat → Nat → String) (fname content : String)
    {wl : List Node} (h : Node.hasFnDefForest fname wl = false) :
    findFunctionSrc sliceLossy fname content wl =
      FnResult.err "Function not found" := by
  induction wl using findFunctionSrc.induct sliceLossy fname content with
  | case1 wl hlen hlast =>
    exact absurd (getLast?_none_aux hlast) (by intro he; rw [he] at hlen; simp at hlen)
  | case2 wl hlen node hlast ht hidx hnm =>
    have := (hasFnDefForest_false_iff fname wl).mp h node
      (mem_of_getLast?_aux hlast)
    rw [hasFnDef_matched ht hnm] at this
    exact absurd this (by simp)
  | case3 wl hlen node hlast ht i hidx hlength hnm =>
    have := (hasFnDefForest_false_iff fname wl).mp h node
      (mem_of_getLast?_aux hlast)
    rw [hasFnDef_matched ht hnm] at this
    exact absurd this (by simp)
  | case4 wl hlen node hlast ht i hidx len hlength hbound hnm =>
    have := (hasFnDefForest_false_iff fname wl).mp h node
      (mem_of_getLast?_aux hlast)
    rw [hasFnDef_matched ht hnm] at this
    exact absurd this (by simp)
  | case5 wl hlen node hlast ht i hidx len hlength hbound hnm =>
    have := (hasFnDefForest_false_iff fname wl).mp h node
      (mem_of_getLast?_aux hlast)
    rw [hasFnDef_matched ht hnm] at this
    exact absurd this (by simp)
  | case6 wl hlen node hlast ht nm hnm hne ih =>
    rw [findFunctionSrc_step sliceLossy fname content hlen hlast, ht, hnm]
    show (if nm = fname then _ else
      findFunctionSrc sliceLossy fname content wl.dropLast) = _
    rw [if_neg hne]
    apply ih
    rw [hasFnDefForest_false_iff]
    intro n hn
    exact (hasFnDefForest_false_iff fname wl).mp h n
      ((List.dropLast_sublist wl).mem hn)
  | case7 wl hlen node hlast ht hnm ih =>
    rw [findFunctionSrc_step sliceLossy fname content hlen hlast, ht, hnm]
    apply ih
    rw [hasFnDefForest_false_iff]
    intro n hn
    exact (hasFnDefForest_false_iff fname wl).mp h n
      ((List.dropLast_sublist wl).mem hn)
  | case8 wl hlen node hlast ht ih =>
    rw [findFunctionSrc_step sliceLossy fname content hlen hlast]
    have hstep : (match node.node_type with
        | NodeType.FunctionDefinition =>
          match node.name with
          | some nm =>
            if nm = fname then
              match node.src.index with
              | none => FnResult.panic "No file index in source location"
              | some _ =>
                match node.src.length with
                | none => FnResult.panic "No length in source location"
                | some len =>
                  if node.src.start + len <= utf8Length content then
                    FnResult.ok (sliceLossy content node.src.start len)
                  else
                    FnResult.panic "range end index out of range for slice"
            else findFunctionSrc sliceLossy fname content wl.dropLast
          | none => findFunctionSrc sliceLossy fname content wl.dropLast
        | _ => findFunctionSrc sliceLossy fname content
            (wl.dropLast ++ node.nodes)) =
        findFunctionSrc sliceLossy fname content (wl.dropLast ++ node.nodes)
        := by
      cases hnt : node.node_type with
      | FunctionDefinition => exact absurd hnt ht
      | ContractDefinition => rfl
      | Other => rfl
    rw [hstep]
    apply ih
    have hnode := (hasFnDefForest_false_iff fname wl).mp h node
      (mem_of_getLast?_aux hlast)
    rw [hasFnDefForest_false_iff]
    exact forest_pred_pop_push hlast
      ((hasFnDefForest_false_iff fname wl).mp h)
      ((hasFnDefForest_false_iff fname node.nodes).mp
        (hasFnDef_children hnode))
  | case9 wl hlen =>
    rw [findFunctionSrc, if_neg hlen]

/-- C1: on a compiled contract (compilation output attached, artifact found
for the contract name, matching source file present), a function name with no
matching function-definition node anywhere inside the named contract's AST
makes `source_code_by_contract_and_function_name` return the defined error
`Function not found`: it neither panics nor returns an empty-string
success. -/
theorem c1_missing_function_is_not_found
    (sliceLossy : String → Nat → Nat → String) (c : PlainContract)
    (out : CompilationOutput) (e : ArtifactEntry) (files : List SourceFile)
    (sf : SourceFile) (cname fname : String)
    (h1 : c.compilation_output = some out)
    (h2 : out.artifacts.find? (fun a => a.name == cname) = some e)
    (h3 : c.source_files = some files)
    (h4 : files.find? (fun f => f.name == e.file) = some sf)
    (h5 : Node.scopeFreeForest cname fname
      ((e.source_ast.map Ast.nodes).getD []) = true) :
    source_code_by_contract_and_function_name sliceLossy c cname fname =
      FnResult.err "Function not found" := by
  simp only [source_code_by_contract_and_function_name, h1, h2, h3, h4]
  exact findFunctionSrc_err_of_no_match sliceLossy fname _
    (findContractScope_scopeFree h5)

/-- Closed instance of the not-found theorem: a compiled `Counter` contract
whose AST defines only `increment`, queried for `decrement`. -/
theorem c1_missing_function_is_not_found_witness :
    source_code_by_contract_and_function_name (fun _ _ _ => "")
      ⟨⟨"Counter", "v0.8.0", 200, true, "bh"⟩,
       ContractSource.SingleSolidity ⟨"main.sol", "contract Counter {}"⟩,
       some ⟨[⟨"main.sol", "Counter",
         some ⟨"main.sol",
           [Node.mk NodeType.ContractDefinition (some "Counter")
             ⟨0, some 19, some 0⟩
             [Node.mk NodeType.FunctionDefinition (some "increment")
               ⟨1, some 8, some 0⟩ []]]⟩, none⟩]⟩,
       some [⟨"main.sol", "contract Counter {}"⟩]⟩
      "Counter" "decrement" = FnResult.err "Function not found" :=
  c1_missing_function_is_not_found (fun _ _ _ => "") _ _
    ⟨"main.sol", "Counter",
      some ⟨"main.sol",
        [Node.mk NodeType.ContractDefinition (some "Counter")
          ⟨0, some 19, some 0⟩
          [Node.mk NodeType.FunctionDefinition (some "increment")
            ⟨1, some 8, some 0⟩ []]]⟩, none⟩ _
    ⟨"main.sol", "contract Counter {}"⟩ "Counter" "decrement"
    rfl rfl rfl rfl (by decide)

theorem findContractScope_srcOk {cname : String} {wl : List Node}
    (h : Node.srcOkForest wl = true) :
    Node.srcOkForest (findContractScope cname wl) = true := by
  induction wl using findContractScope.induct cname with
  | case1 wl hlen hlast =>
    rw [findContractScope, if_pos hlen, hlast]
    simp [Node.srcOkForest]
  | case2 wl hlen node hlast hcond =>
    rw [findContractScope, if_pos hlen, hlast]
    show Node.srcOkForest
      (if node.node_type = NodeType.ContractDefinition ∧
          node.name = some cname
       then node.nodes
       else findContractScope cname (wl.dropLast ++ node.nodes)) = true
    rw [if_pos hcond]
    exact srcOk_children
      ((srcOkForest_true_iff wl).mp h node (mem_of_getLast?_aux hlast))
  | case3 wl hlen node hlast hcond ih =>
    rw [findContractScope, if_pos hlen, hlast]
    show Node.srcOkForest
      (if node.node_type = NodeType.ContractDefinition ∧
          node.name = some cname
       then node.nodes
       else findContractScope cname (wl.dropLast ++ node.nodes)) = true
    rw [if_neg hcond]
    apply ih
    rw [srcOkForest_true_iff]
    exact forest_pred_pop_push hlast ((srcOkForest_true_iff wl).mp h)
      ((srcOkForest_true_iff node.nodes).mp (srcOk_children
        ((srcOkForest_true_iff wl).mp h node (mem_of_getLast?_aux hlast))))
  | case4 wl hlen =>
    rw [findContractScope, if_neg hlen]
    simp [Node.srcOkForest]

theorem findContractScope_srcBounded {len : Nat} {cname : String}
    {wl : List Node} (h : Node.srcBoundedForest len wl = true) :
    Node.srcBoundedForest len (findContractScope cname wl) = true := by
  induction wl using findContractScope.induct cname with
  | case1 wl hlen hlast =>
    rw [findContractScope, if_pos hlen, hlast]
    simp [Node.srcBoundedForest]
  | case2 wl hlen node hlast hcond =>
    rw [findContractScope, if_pos hlen, hlast]
    show Node.srcBoundedForest len
      (if node.node_type = NodeType.ContractDefinition ∧
          node.name = some cname
       then node.nodes
       else findContractScope cname (wl.dropLast ++ node.nodes)) = true
    rw [if_pos hcond]
    exact srcBounded_children
      ((srcBoundedForest_true_iff len wl).mp h node (mem_of_getLast?_aux hlast))
  | case3 wl hlen node hlast hcond ih =>
    rw [findContractScope, if_pos hlen, hlast]
    show Node.srcBoundedForest len
      (if node.node_type = NodeType.ContractDefinition ∧
          node.name = some cname
       then node.nodes
       else findContractScope cname (wl.dropLast ++ node.nodes)) = true
    rw [if_neg hcond]
    apply ih
    rw [srcBoundedForest_true_iff]
    exact forest_pred_pop_push hlast ((srcBoundedForest_true_iff len wl).mp h)
      ((srcBoundedForest_true_iff len node.nodes).mp (srcBounded_children
        ((srcBoundedForest_true_iff len wl).mp h node
          (mem_of_getLast?_aux hlast))))
  | case4 wl hlen =>
    rw [findContractScope, if_neg hlen]
    simp [Node.srcBoundedForest]

theorem findFunctionSrc_no_panic (sliceLossy : String → Nat → Nat → String)
    (fname content : String) {wl : List Node}
    (h : Node.srcOkForest wl = true)
    (hb : Node.srcBoundedForest (utf8Length content) wl = true) :
    ∀ m, findFunctionSrc sliceLossy fname content wl ≠ FnResult.panic m := by
  induction wl using findFunctionSrc.induct sliceLossy fname content with
  | case1 wl hlen hlast =>
    exact absurd (getLast?_none_aux hlast)
      (by intro he; rw [he] at hlen; simp at hlen)
  | case2 wl hlen node hlast ht hidx hnm =>
    have hok := (srcOkForest_true_iff wl).mp h node (mem_of_getLast?_aux hlast)
    cases node with
    | mk t nm src ns =>
      rw [Node.srcOk, Bool.and_eq_true, Bool.and_eq_true] at hok
      simp only [Node.src] at hidx
      rw [hidx] at hok
      simp at hok
  | case3 wl hlen node hlast ht i hidx hlength hnm =>
    have hok := (srcOkForest_true_iff wl).mp h node (mem_of_getLast?_aux hlast)
    cases node with
    | mk t nm src ns =>
      rw [Node.srcOk, Bool.and_eq_true, Bool.and_eq_true] at hok
      simp only [Node.src] at hlength
      rw [hlength] at hok
      simp at hok
  | case4 wl hlen node hlast ht i hidx len hlength hbound hnm =>
    intro m
    rw [findFunctionSrc_step sliceLossy fname content hlen hlast, ht, hnm]
    show (if fname = fname then _ else _) ≠ _
    rw [if_pos rfl]
    simp only [hidx, hlength]
    rw [if_pos hbound]
    simp
  | case5 wl hlen node hlast ht i hidx len hlength hbound hnm =>
    have hbd := (srcBoundedForest_true_iff (utf8Length content) wl).mp hb node
      (mem_of_getLast?_aux hlast)
    cases node with
    | mk t nm src ns =>
      rw [Node.srcBounded, Bool.and_eq_true] at hbd
      simp only [Node.src] at hlength hbound
      rw [hlength] at hbd
      simp only [Option.getD_some] at hbd
      exact absurd (by simpa using hbd.1) hbound
  | case6 wl hlen node hlast ht nm hnm hne ih =>
    intro m
    rw [findFunctionSrc_step sliceLossy fname content hlen hlast, ht, hnm]
    show (if nm = fname then _ else
      findFunctionSrc sliceLossy fname content wl.dropLast) ≠ _
    rw [if_neg hne]
    apply ih
    · rw [srcOkForest_true_iff]
      intro n hn
      exact (srcOkForest_true_iff wl).mp h n ((List.dropLast_sublist wl).mem hn)
    · rw [srcBoundedForest_true_iff]
      intro n hn
      exact (srcBoundedForest_true_iff (utf8Length content) wl).mp hb n
        ((List.dropLast_sublist wl).mem hn)
  | case7 wl hlen node hlast ht hnm ih =>
    intro m
    rw [findFunctionSrc_step sliceLossy fname content hlen hlast, ht, hnm]
    apply ih
    · rw [srcOkForest_true_iff]
      intro n hn
      exact (srcOkForest_true_iff wl).mp h n ((List.dropLast_sublist wl).mem hn)
    · rw [srcBoundedForest_true_iff]
      intro n hn
      exact (srcBoundedForest_true_iff (utf8Length content) wl).mp hb n
        ((List.dropLast_sublist wl).mem hn)
  | case8 wl hlen node hlast ht ih =>
    intro m
    rw [findFunctionSrc_step sliceLossy fname content hlen hlast]
    have hok := (srcOkForest_true_iff wl).mp h node (mem_of_getLast?_aux hlast)
    have hbd := (srcBoundedForest_true_iff (utf8Length content) wl).mp hb node
      (mem_of_getLast?_aux hlast)
    have hstep : (match node.node_type with
        | NodeType.FunctionDefinition =>
          match node.name with
          | some nm =>
            if nm = fname then
              match node.src.index with
              | none => FnResult.panic "No file index in source location"
              | some _ =>
                match node.src.length with
                | none => FnResult.panic "No length in source location"
                | some len =>
                  if node.src.start + len <= utf8Length content then
                    FnResult.ok (sliceLossy content node.src.start len)
                  else
                    FnResult.panic "range end index out of range for slice"
            else findFunctionSrc sliceLossy fname content wl.dropLast
          | none => findFunctionSrc sliceLossy fname content wl.dropLast
        | _ => findFunctionSrc sliceLossy fname content
            (wl.dropLast ++ node.nodes)) =
        findFunctionSrc sliceLossy fname content (wl.dropLast ++ node.nodes)
        := by
      cases hnt : node.node_type with
      | FunctionDefinition => exact absurd hnt ht
      | ContractDefinition => rfl
      | Other => rfl
    rw [hstep]
    apply ih
    · rw [srcOkForest_true_iff]
      exact forest_pred_pop_push hlast ((srcOkForest_true_iff wl).mp h)
        ((srcOkForest_true_iff node.nodes).mp (srcOk_children hok))
    · rw [srcBoundedForest_true_iff]
      exact forest_pred_pop_push hlast
        ((srcBoundedForest_true_iff (utf8Length content) wl).mp hb)
        ((srcBoundedForest_true_iff (utf8Length content) node.nodes).mp
          (srcBounded_children hbd))
  | case9 wl hlen =>
    intro m
    rw [findFunctionSrc, if_neg hlen]
    simp

theorem source_code_no_panic (sliceLossy : String → Nat → Nat → String)
    (c : PlainContract) (out : CompilationOutput) (cname fname : String)
    (h1 : c.compilation_output = some out)
    (h2 : ∀ e ∈ out.artifacts,
      Node.srcOkForest ((e.source_ast.map Ast.nodes).getD []) = true)
    (h3 : ∀ e ∈ out.artifacts, ∀ sf ∈ c.source_files.getD [],
      Node.srcBoundedForest (utf8Length (normalizeCrlf sf.content))
        ((e.source_ast.map Ast.nodes).getD []) = true) :
    ∀ m, source_code_by_contract_and_function_name sliceLossy c cname fname ≠
      FnResult.panic m := by
  intro m
  cases hfind : out.artifacts.find? (fun e => e.name == cname) with
  | none => simp [source_code_by_contract_and_function_name, h1, hfind]
  | some contractEntry =>
    cases hsf : c.source_files with
    | none => simp [source_code_by_contract_and_function_name, h1, hfind, hsf]
    | some files =>
      cases hfile : files.find?
          (fun f => f.name == contractEntry.file) with
      | none =>
        simp [source_code_by_contract_and_function_name, h1, hfind, hsf,
          hfile]
      | some sf =>
        simp only [source_code_by_contract_and_function_name, h1, hfind, hsf,
          hfile]
        have hmem := List.mem_of_find?_eq_some hfind
        have hsfmem : sf ∈ c.source_files.getD [] := by
          rw [hsf]
          exact List.mem_of_find?_eq_some hfile
        exact findFunctionSrc_no_panic sliceLossy fname _
          (findContractScope_srcOk (h2 contractEntry hmem))
          (findContractScope_srcBounded (h3 contractEntry hmem sf hsfmem)) m

theorem mapPanic_eq_map {α β : Type} (g : α → PanicOr β) (g' : α → β)
    (l : List α) (h : ∀ a ∈ l, g a = PanicOr.value (g' a)) :
    mapPanic g l = PanicOr.value (l.map g') := by
  induction l with
  | nil => rfl
  | cons a as ih =>
    show (match g a with
      | PanicOr.panic m => PanicOr.panic m
      | PanicOr.value b =>
        match mapPanic g as with
        | PanicOr.panic m => PanicOr.panic m
        | PanicOr.value bs => PanicOr.value (b :: bs)) = _
    rw [h a (List.mem_cons_self _ _),
      ih (fun x hx => h x (List.mem_cons_of_mem _ hx))]
    rfl

theorem extractOne_value (digest : String → String) (keccak4 : String → Nat)
    (sliceLossy : String → Nat → Nat → String) (c : PlainContract)
    (contract_id filename cname : String) (f : AbiFunction)
    (hnp : ∀ m, source_code_by_contract_and_function_name sliceLossy c cname
      f.name ≠ FnResult.panic m) :
    extractOne digest keccak4 sliceLossy c contract_id filename cname f =
      PanicOr.value (ContractFunction.from_abi digest keccak4 contract_id
        filename cname f
        (match source_code_by_contract_and_function_name sliceLossy c cname
            f.name with
         | FnResult.ok s => s
         | _ => "")) := by
  unfold extractOne
  cases hres : source_code_by_contract_and_function_name sliceLossy c cname
      f.name with
  | ok s => rfl
  | err m => rfl
  | panic m => exact absurd hres (hnp m)

/-- C8: on a compiled contract whose AST nodes all carry their source
locations and whose byte spans lie inside the normalized source contents
(the well-formedness `solc` guarantees; a found node violating either would
be a Rust panic through `expect` or the byte-slice indexing, outside the
claim's error class), `extract_functions` succeeds and produces exactly one
row per ABI function of every artifact; a per-function source recovery that
fails (such as a function-definition node that cannot be found) degrades to
an empty `source_code` for that one function only, leaving the other
functions, the complete ABI list, and the batch untouched. -/
theorem c8_extraction_errors_degrade (digest : String → String)
    (keccak4 : String → Nat) (sliceLossy : String → Nat → Nat → String)
    (c : PlainContract) (out : CompilationOutput)
    (h1 : c.compilation_output = some out)
    (h2 : ∀ e ∈ out.artifacts,
      Node.srcOkForest ((e.source_ast.map Ast.nodes).getD []) = true)
    (h3 : ∀ e ∈ out.artifacts, ∀ sf ∈ c.source_files.getD [],
      Node.srcBoundedForest (utf8Length (normalizeCrlf sf.content))
        ((e.source_ast.map Ast.nodes).getD []) = true) :
    extract_functions digest keccak4 sliceLossy c =
      PanicOr.value (Except.ok
        (extractAllSpec digest keccak4 sliceLossy c out)) ∧
    (extractAllSpec digest keccak4 sliceLossy c out).length =
      (out.artifacts.map (fun e => (e.abi.getD []).length)).sum := by
  constructor
  · simp only [extract_functions, h1]
    have hmp : mapPanic (fun e : ArtifactEntry =>
        match e.abi with
        | some abi =>
          mapPanic (extractOne digest keccak4 sliceLossy c (c.id digest)
            ((e.source_ast.map Ast.absolute_path).getD "") e.name) abi
        | none => PanicOr.value []) out.artifacts =
        PanicOr.value (out.artifacts.map (fun e : ArtifactEntry =>
          match e.abi with
          | some abi =>
            abi.map (fun f =>
              ContractFunction.from_abi digest keccak4 (c.id digest)
                ((e.source_ast.map Ast.absolute_path).getD "") e.name f
                (match source_code_by_contract_and_function_name sliceLossy c
                    e.name f.name with
                 | FnResult.ok s => s
                 | _ => ""))
          | none => [])) := by
      apply mapPanic_eq_map
      intro e he
      cases habi : e.abi with
      | none => rfl
      | some abi =>
        exact mapPanic_eq_map _ _ abi (fun f _ =>
          extractOne_value digest keccak4 sliceLossy c (c.id digest)
            ((e.source_ast.map Ast.absolute_path).getD "") e.name f
            (source_code_no_panic sliceLossy c out e.name f.name h1 h2 h3))
    rw [hmp]
    rfl
  · rw [extractAllSpec, List.length_flatten, List.map_map]
    congr 1
    apply List.map_congr_left
    intro e he
    cases habi : e.abi with
    | none => simp [habi]
    | some abi => simp [habi]

/-- Closed instance of the extraction theorem: one compiled artifact with a
two-function ABI, on which extraction succeeds with one row per ABI
function. -/
theorem c8_extraction_errors_degrade_witness :
    (let out : CompilationOutput :=
       ⟨[⟨"main.sol", "Counter",
         some ⟨"main.sol",
           [Node.mk NodeType.ContractDefinition (some "Counter")
             ⟨0, some 19, some 0⟩
             [Node.mk NodeType.FunctionDefinition (some "increment")
               ⟨10, some 8, some 0⟩ []]]⟩,
         some [⟨"increment", []⟩, ⟨"missing", []⟩]⟩]⟩
     let c : PlainContract :=
       ⟨⟨"Counter", "v0.8.0", 200, true, "bh"⟩,
        ContractSource.SingleSolidity ⟨"main.sol", "contract Counter {}"⟩,
        some out, some [⟨"main.sol", "contract Counter {}"⟩]⟩
     extract_functions (fun s => s) (fun _ => 0) (fun _ _ _ => "") c =
       PanicOr.value (Except.ok
         (extractAllSpec (fun s => s) (fun _ => 0) (fun _ _ _ => "") c
           out)) ∧
     (extractAllSpec (fun s => s) (fun _ => 0) (fun _ _ _ => "") c
         out).length =
       (out.artifacts.map (fun e => (e.abi.getD []).length)).sum) :=
  c8_extraction_errors_degrade (fun s => s) (fun _ => 0) (fun _ _ _ => "")
    _ _ rfl (by decide) (by decide)
